import Mathlib

/-
Verification of the delay-queue scheduler core (src/scheduler/scheduler.rs).

Modelling choices:
* The u64 time values are modelled as Nat with explicit reduction modulo
  U64 = 2^64 wherever the Rust code performs u64 arithmetic that can wrap
  (release-mode overflow semantics).  Subtraction `a - b` on u64 is modelled
  as `(a + U64 - b) % U64`, which agrees with plain truncated subtraction
  whenever `b <= a < U64`.
* `std::collections::BinaryHeap<Event<F>>` is modelled as a list kept sorted
  with the maximum element under the (inverted) `Ord` impl first, that is,
  nondecreasing in `time`: `push` is ordered insertion, `peek` is `head`,
  `pop` is `tail`.  The relative order of equal-time events, which the Rust
  heap leaves unspecified, is fixed deterministically by the insertion.
* The `Scheduler` thread, lock and park/unpark signalling are not modelled;
  `Scheduler::delay` is modelled by its effect on the wrapped `Timer`.
-/

namespace Mesh

/-- Modulus of the 64-bit unsigned integers used for all time values. -/
def U64 : Nat := 2 ^ 64

variable {α β : Type}

/-- Mirrors `struct Event<F> { time: u64, cb: F }`. -/
structure Event (α : Type) where
  time : Nat
  cb : α
  deriving DecidableEq

/-- Mirrors `impl Ord for Event`: `self.cmp(other) = other.time.cmp(&self.time)`,
the comparison inverted with respect to scheduled time. -/
def Event.cmp (a b : Event α) : Ordering := compare b.time a.time

/-- Push into the heap, modelled as ordered insertion into the list sorted
with the `Event.cmp`-greatest (earliest-time) element first: the new event is
placed before the first strictly `Event.cmp`-smaller element. -/
def heapPush (e : Event α) : List (Event α) → List (Event α)
  | [] => [e]
  | x :: xs =>
    if Event.cmp e x = Ordering.gt then e :: x :: xs else x :: heapPush e xs

/-- Mirrors `struct Timer<F> { events: BinaryHeap<Event<F>>, elapsed: u64 }`. -/
structure Timer (α : Type) where
  events : List (Event α)
  elapsed : Nat
  deriving DecidableEq

/-- Mirrors `Timer::new`. -/
def Timer.new : Timer α := { events := [], elapsed := 0 }

/-- Mirrors `Timer::add`: pushes an event at time `delay + self.elapsed`
(u64 addition, hence the reduction modulo `U64`). -/
def Timer.add (t : Timer α) (delay : Nat) (cb : α) : Timer α :=
  { t with events := heapPush { time := (delay + t.elapsed) % U64, cb := cb } t.events }

/-- Mirrors `Timer::earliest`: `self.events.peek().map(|e| e.time - self.elapsed)`,
with u64 (wrapping) subtraction. -/
def Timer.earliest (t : Timer α) : Option Nat :=
  t.events.head?.map (fun e => (e.time + U64 - t.elapsed) % U64)

/-- The loop guard of `Timer::advance`: an event is due once its time is at
or before the elapsed counter. -/
def due (el : Nat) (e : Event α) : Bool := decide (e.time ≤ el)

/-- The while loop of `Timer::advance`: repeatedly pop the heap top while it
is due, returning the popped events and the remaining heap. -/
def drain (el : Nat) : List (Event α) → List (Event α) × List (Event α)
  | [] => ([], [])
  | e :: es =>
    if due el e then
      let p := drain el es
      (e :: p.1, p.2)
    else ([], e :: es)

/-- Mirrors `Timer::advance` but keeps the popped events whole (time and
callback) instead of projecting to the callbacks. -/
def Timer.advanceEvents (t : Timer α) (d : Nat) : List (Event α) × Timer α :=
  let el := (t.elapsed + d) % U64
  let p := drain el t.events
  (p.1, { events := p.2, elapsed := el })

/-- Mirrors `Timer::advance`: `self.elapsed += elapsed` (u64, wrapping), then
pop every due event, returning their callbacks in pop order. -/
def Timer.advance (t : Timer α) (d : Nat) : List α × Timer α :=
  let p := t.advanceEvents d
  (p.1.map Event.cb, p.2)

/-- A single mutating timer operation, for stating trace properties. -/
inductive Op (α : Type) where
  | add (delay : Nat) (cb : α)
  | advance (d : Nat)

/-- Apply one operation to a timer, discarding the drained callbacks. -/
def Timer.run (t : Timer α) : Op α → Timer α
  | Op.add d cb => t.add d cb
  | Op.advance d => (t.advance d).2

/-- Apply a sequence of operations to a timer. -/
def Timer.runAll (t : Timer α) (ops : List (Op α)) : Timer α :=
  ops.foldl Timer.run t

/-- Holds when, along the trace, no `add` overflows the u64 deadline
computation `delay + elapsed`; `el` tracks the elapsed counter. -/
def addsOk (el : Nat) : List (Op α) → Bool
  | [] => true
  | Op.add d _ :: ops => decide (d + el < U64) && addsOk el ops
  | Op.advance d :: ops => addsOk ((el + d) % U64) ops

/-- Mirrors `struct Scheduler`, reduced to the timer it wraps: the lock, the
driver thread handle and the unpark signal have no effect on the timer state. -/
structure Scheduler (α : Type) where
  timer : Timer α

/-- Mirrors `Scheduler::delay`: converts milliseconds to nanoseconds by the
u64 multiplication `millis * 1000000` (wrapping) and calls `Timer::add`. -/
def Scheduler.delay (s : Scheduler α) (millis : Nat) (cb : α) : Scheduler α :=
  { timer := s.timer.add (millis * 1000000 % U64) cb }

/-- The heap invariant of the sorted-list model: times are nondecreasing. -/
abbrev timeSorted (l : List (Event α)) : Prop :=
  l.Pairwise (fun a b => a.time ≤ b.time)

/-- The inverted comparison makes an event strictly greater exactly when its
time is strictly smaller. -/
theorem Event.cmp_eq_gt (a b : Event α) :
    Event.cmp a b = Ordering.gt ↔ a.time < b.time :=
  Nat.compare_eq_gt

/-- Pushing into the sorted-list heap is a permutation of consing. -/
theorem heapPush_perm (e : Event α) (l : List (Event α)) :
    (heapPush e l).Perm (e :: l) := by
  induction l with
  | nil => simp [heapPush]
  | cons x xs ih =>
    simp only [heapPush]
    by_cases h : Event.cmp e x = Ordering.gt
    · simp [h]
    · simp only [h, if_false]
      exact (ih.cons x).trans (List.Perm.swap e x xs)

/-- Pushing preserves the sortedness invariant of the heap model. -/
theorem timeSorted_heapPush (e : Event α) (l : List (Event α)) (h : timeSorted l) :
    timeSorted (heapPush e l) := by
  induction l with
  | nil => simp [heapPush]
  | cons x xs ih =>
    obtain ⟨hx, hxs⟩ := List.pairwise_cons.mp h
    simp only [heapPush]
    by_cases hc : Event.cmp e x = Ordering.gt
    · rw [if_pos hc]
      rw [Event.cmp_eq_gt] at hc
      refine List.Pairwise.cons ?_ (List.pairwise_cons.mpr ⟨hx, hxs⟩)
      intro y hy
      rcases List.mem_cons.mp hy with rfl | hy
      · exact Nat.le_of_lt hc
      · exact Nat.le_trans (Nat.le_of_lt hc) (hx y hy)
    · rw [if_neg hc]
      rw [Event.cmp_eq_gt] at hc
      have hxe : x.time ≤ e.time := Nat.le_of_not_lt hc
      refine List.Pairwise.cons ?_ (ih hxs)
      intro y hy
      rcases List.mem_cons.mp ((heapPush_perm e xs).mem_iff.mp hy) with rfl | hy
      · exact hxe
      · exact hx y hy

/-- The drain loop computes the longest due prefix and the corresponding
suffix of the event list. -/
theorem drain_eq (el : Nat) (l : List (Event α)) :
    drain el l = (l.takeWhile (due el), l.dropWhile (due el)) := by
  induction l with
  | nil => rfl
  | cons e es ih =>
    simp only [drain, List.takeWhile_cons, List.dropWhile_cons]
    by_cases h : due el e = true
    · simp [h, ih]
    · simp [h]

/-- Splitting a takeWhile at a weaker predicate: the prefix taken by `p`
followed by the prefix of the rest taken by `q` is the prefix taken by `q`,
whenever `p` implies `q`. -/
theorem takeWhile_append_takeWhile (p q : β → Bool) (h : ∀ x, p x = true → q x = true)
    (l : List β) : l.takeWhile p ++ (l.dropWhile p).takeWhile q = l.takeWhile q := by
  induction l with
  | nil => rfl
  | cons x xs ih =>
    by_cases hp : p x = true
    · simp [List.takeWhile_cons, List.dropWhile_cons, hp, h x hp, ih]
    · simp [List.takeWhile_cons, List.dropWhile_cons, hp]

/-- Dropping by `p` and then by a weaker `q` is the same as dropping by `q`. -/
theorem dropWhile_dropWhile (p q : β → Bool) (h : ∀ x, p x = true → q x = true)
    (l : List β) : (l.dropWhile p).dropWhile q = l.dropWhile q := by
  induction l with
  | nil => rfl
  | cons x xs ih =>
    by_cases hp : p x = true
    · simp [List.dropWhile_cons, hp, h x hp, ih]
    · simp [List.dropWhile_cons, hp]

/-- In a sorted tail every event is beyond `el` once the head is. -/
theorem timeSorted_all_not_due (el : Nat) (x : Event α) (xs : List (Event α))
    (hx : ∀ y ∈ xs, x.time ≤ y.time) (hd : ¬ x.time ≤ el) :
    ∀ y ∈ xs, due el y = false := by
  intro y hy
  simp only [due, decide_eq_false_iff_not]
  intro hle
  exact hd (Nat.le_trans (hx y hy) hle)

/-- On a time-sorted list the due prefix is the whole due sublist. -/
theorem timeSorted_takeWhile_eq_filter (el : Nat) (l : List (Event α))
    (h : timeSorted l) : l.takeWhile (due el) = l.filter (due el) := by
  induction l with
  | nil => rfl
  | cons x xs ih =>
    obtain ⟨hx, hxs⟩ := List.pairwise_cons.mp h
    by_cases hd : due el x = true
    · simp [List.takeWhile_cons, List.filter_cons, hd, ih hxs]
    · have hxd : ¬ x.time ≤ el := by simpa [due] using hd
      have hnil : xs.filter (due el) = [] :=
        List.filter_eq_nil_iff.mpr fun y hy => by
          simp [timeSorted_all_not_due el x xs hx hxd y hy]
      simp [List.takeWhile_cons, List.filter_cons, hd, hnil]

/-- On a time-sorted list the not-yet-due suffix is the whole not-due sublist. -/
theorem timeSorted_dropWhile_eq_filter (el : Nat) (l : List (Event α))
    (h : timeSorted l) : l.dropWhile (due el) = l.filter (fun e => ! due el e) := by
  induction l with
  | nil => rfl
  | cons x xs ih =>
    obtain ⟨hx, hxs⟩ := List.pairwise_cons.mp h
    by_cases hd : due el x = true
    · simp [List.dropWhile_cons, List.filter_cons, hd, ih hxs]
    · have hxd : ¬ x.time ≤ el := by simpa [due] using hd
      have hself : xs.filter (fun e => ! due el e) = xs :=
        List.filter_eq_self.mpr fun y hy => by
          simp [timeSorted_all_not_due el x xs hx hxd y hy]
      simp [List.dropWhile_cons, List.filter_cons, hd, hself]

/-- Every event left after dropping the due prefix of a sorted list is
strictly beyond the elapsed counter. -/
theorem mem_dropWhile_lt (el : Nat) (l : List (Event α)) (h : timeSorted l) :
    ∀ e ∈ l.dropWhile (due el), el < e.time := by
  intro e he
  rw [timeSorted_dropWhile_eq_filter el l h] at he
  have := (List.mem_filter.mp he).2
  simp only [due, Bool.not_eq_true', decide_eq_false_iff_not] at this
  exact Nat.lt_of_not_le this

/-- Folding a batch of adds never changes the elapsed counter. -/
theorem foldl_add_elapsed (ps : List (Nat × α)) (t : Timer α) :
    (ps.foldl (fun u p => u.add p.1 p.2) t).elapsed = t.elapsed := by
  induction ps generalizing t with
  | nil => rfl
  | cons p ps ih => exact ih (t.add p.1 p.2)

/-- Folding a batch of adds extends the event multiset by one event per pair,
at deadline `delay + elapsed` (u64 addition). -/
theorem foldl_add_events (ps : List (Nat × α)) (t : Timer α) :
    (ps.foldl (fun u p => u.add p.1 p.2) t).events.Perm
      ((ps.map (fun p => Event.mk ((p.1 + t.elapsed) % U64) p.2)) ++ t.events) := by
  induction ps generalizing t with
  | nil => simp
  | cons p ps ih =>
    have h1 := ih (t.add p.1 p.2)
    exact h1.trans ((List.Perm.append_left _ (heapPush_perm _ _)).trans List.perm_middle)

/-- Folding a batch of adds preserves the sortedness invariant. -/
theorem foldl_add_sorted (ps : List (Nat × α)) (t : Timer α) (h : timeSorted t.events) :
    timeSorted (ps.foldl (fun u p => u.add p.1 p.2) t).events := by
  induction ps generalizing t with
  | nil => exact h
  | cons p ps ih => exact ih _ (timeSorted_heapPush _ _ h)

/-- Folding min over a list bounded below by the accumulator returns the
accumulator. -/
theorem foldl_min_of_le (a : Nat) (l : List Nat) (h : ∀ x ∈ l, a ≤ x) :
    l.foldl min a = a := by
  induction l with
  | nil => rfl
  | cons x xs ih =>
    simp only [List.foldl_cons]
    rw [min_eq_left (h x (List.mem_cons_self x xs))]
    exact ih fun y hy => h y (List.mem_cons_of_mem x hy)

/-- The head of a time-sorted event list carries the minimum time. -/
theorem min?_map_time (l : List (Event α)) (h : timeSorted l) :
    (l.map Event.time).min? = l.head?.map Event.time := by
  cases l with
  | nil => rfl
  | cons x xs =>
    obtain ⟨hx, _⟩ := List.pairwise_cons.mp h
    simp only [List.map_cons, List.min?_cons', List.head?_cons, Option.map_some']
    congr 1
    refine foldl_min_of_le x.time (xs.map Event.time) ?_
    intro y hy
    obtain ⟨e, he, rfl⟩ := List.mem_map.mp hy
    exact hx e he

/-- Invariant of every reachable timer state: the heap list is time-sorted and
all stored machine words are reduced modulo `U64`. -/
def GoodT (t : Timer α) : Prop :=
  timeSorted t.events ∧ t.elapsed < U64 ∧ ∀ e ∈ t.events, e.time < U64

theorem U64_pos : 0 < U64 := by decide

theorem goodT_new : GoodT (Timer.new (α := α)) := by
  refine ⟨List.Pairwise.nil, U64_pos, ?_⟩
  intro e he
  exact absurd he (List.not_mem_nil e)

theorem goodT_add (t : Timer α) (d : Nat) (cb : α) (h : GoodT t) : GoodT (t.add d cb) := by
  obtain ⟨hs, he, hb⟩ := h
  refine ⟨timeSorted_heapPush _ _ hs, he, ?_⟩
  intro e hmem
  rcases List.mem_cons.mp ((heapPush_perm _ _).mem_iff.mp hmem) with rfl | hmem
  · exact Nat.mod_lt _ U64_pos
  · exact hb e hmem

/-- The drained events of an advance, before projecting to callbacks, are
the due prefix of the heap list. -/
theorem advanceEvents_fst (t : Timer α) (d : Nat) :
    (t.advanceEvents d).1 = t.events.takeWhile (due ((t.elapsed + d) % U64)) := by
  simp [Timer.advanceEvents, drain_eq]

/-- The remaining heap of an advance, before projecting to callbacks, is the
not-yet-due suffix of the heap list. -/
theorem advanceEvents_snd_events (t : Timer α) (d : Nat) :
    ((t.advanceEvents d).2).events = t.events.dropWhile (due ((t.elapsed + d) % U64)) := by
  simp [Timer.advanceEvents, drain_eq]

/-- Two timers with the same heap list and the same elapsed counter are equal. -/
theorem Timer.ext_eq (t u : Timer α) (he : t.events = u.events)
    (hl : t.elapsed = u.elapsed) : t = u := by
  cases t
  cases u
  cases he
  cases hl
  rfl

/-- The remaining heap of an advance is the not-yet-due suffix. -/
theorem advance_snd_events (t : Timer α) (d : Nat) :
    ((t.advance d).2).events = t.events.dropWhile (due ((t.elapsed + d) % U64)) := by
  simp [Timer.advance, Timer.advanceEvents, drain_eq]

/-- The drained events of an advance are the due prefix. -/
theorem advance_fst (t : Timer α) (d : Nat) :
    (t.advance d).1 = (t.events.takeWhile (due ((t.elapsed + d) % U64))).map Event.cb := by
  simp [Timer.advance, Timer.advanceEvents, drain_eq]

theorem advance_snd_elapsed (t : Timer α) (d : Nat) :
    ((t.advance d).2).elapsed = (t.elapsed + d) % U64 := rfl

theorem goodT_advance (t : Timer α) (d : Nat) (h : GoodT t) : GoodT ((t.advance d).2) := by
  obtain ⟨hs, he, hb⟩ := h
  refine ⟨?_, Nat.mod_lt _ U64_pos, ?_⟩
  · rw [advance_snd_events]
    exact List.Pairwise.sublist (List.dropWhile_sublist _) hs
  · intro e hmem
    rw [advance_snd_events] at hmem
    exact hb e ((List.dropWhile_sublist _).subset hmem)

theorem goodT_run (t : Timer α) (op : Op α) (h : GoodT t) : GoodT (t.run op) := by
  cases op with
  | add d cb => exact goodT_add t d cb h
  | advance d => exact goodT_advance t d h

theorem goodT_runAll (t : Timer α) (ops : List (Op α)) (h : GoodT t) :
    GoodT (Timer.runAll t ops) := by
  induction ops generalizing t with
  | nil => exact h
  | cons op ops ih => exact ih _ (goodT_run t op h)

/-- Lower-bound invariant: no pending event lies in the past. -/
def Bounded (t : Timer α) : Prop := ∀ e ∈ t.events, t.elapsed ≤ e.time

theorem bounded_runAll (t : Timer α) (ops : List (Op α)) (hg : GoodT t) (hb : Bounded t)
    (hok : addsOk t.elapsed ops = true) : Bounded (Timer.runAll t ops) := by
  induction ops generalizing t with
  | nil => exact hb
  | cons op ops ih =>
    cases op with
    | add d cb =>
      simp only [addsOk, Bool.and_eq_true, decide_eq_true_eq] at hok
      obtain ⟨hlt, hok⟩ := hok
      refine ih (t.add d cb) (goodT_add t d cb hg) ?_ hok
      intro e hmem
      rcases List.mem_cons.mp ((heapPush_perm _ _).mem_iff.mp hmem) with rfl | hmem
      · show t.elapsed ≤ (d + t.elapsed) % U64
        rw [Nat.mod_eq_of_lt hlt]
        exact Nat.le_add_left _ _
      · exact hb e hmem
    | advance d =>
      simp only [addsOk] at hok
      refine ih ((t.advance d).2) (goodT_advance t d hg) ?_ hok
      intro e hmem
      rw [advance_snd_events] at hmem
      exact Nat.le_of_lt (mem_dropWhile_lt _ _ hg.1 e hmem)

/-- C4: the Event ordering relation is inverted with respect to deadline:
an event compares strictly greater exactly when its time is strictly
smaller, so the smallest deadline sits at the top of the max-oriented heap;
in particular an event at time 1 compares greater than an event at time 2. -/
theorem c4_event_order_inverted :
    (∀ (γ : Type) (a b : Event γ), Event.cmp a b = Ordering.gt ↔ a.time < b.time)
    ∧ Event.cmp (Event.mk 1 ()) (Event.mk 2 ()) = Ordering.gt := by
  constructor
  · intro γ a b
    exact Event.cmp_eq_gt a b
  · decide

/-- C10: Scheduler.delay interprets its duration in milliseconds and
multiplies it by 1000000 (u64) before Timer.add, so the inserted event has
deadline elapsed + millis * 1000000 modulo 2^64, all other pending events are
kept, and the elapsed counter is unchanged. -/
theorem c10_delay_millis_conversion (s : Scheduler α) (millis : Nat) (cb : α) :
    ((s.delay millis cb).timer.events).Perm
      (Event.mk ((s.timer.elapsed + millis * 1000000) % U64) cb :: s.timer.events)
    ∧ (s.delay millis cb).timer.elapsed = s.timer.elapsed := by
  constructor
  · have ht : (millis * 1000000 % U64 + s.timer.elapsed) % U64
        = (s.timer.elapsed + millis * 1000000) % U64 := by
      rw [Nat.mod_add_mod, Nat.add_comm]
    show (heapPush (Event.mk ((millis * 1000000 % U64 + s.timer.elapsed) % U64) cb)
        s.timer.events).Perm
      (Event.mk ((s.timer.elapsed + millis * 1000000) % U64) cb :: s.timer.events)
    rw [ht]
    exact heapPush_perm _ _
  · rfl

/-- C2: after any sequence of add and advance operations on a fresh timer,
earliest returns the minimum deadline over all pending events minus the
current elapsed value (u64 subtraction, as performed by the code), or none
when no event is pending. -/
theorem c2_earliest_min (ops : List (Op α)) :
    (Timer.runAll Timer.new ops).earliest
      = ((Timer.runAll Timer.new ops).events.map Event.time).min?.map
          (fun m => (m + U64 - (Timer.runAll Timer.new ops).elapsed) % U64) := by
  have hg := goodT_runAll (Timer.new (α := α)) ops goodT_new
  rw [min?_map_time _ hg.1, Option.map_map]
  rfl

/-- C6 counterexample: from elapsed = 1 (reachable by advance 1), adding with
delay 2^64 - 1 stores the wrapped deadline 0, not the exact non-wrapping sum
elapsed + delay = 2^64. -/
theorem c6_counterexample :
    ¬ (((((Timer.new (α := Unit)).advance 1).2).add (U64 - 1) ()).events.map Event.time
        = [(((Timer.new (α := Unit)).advance 1).2).elapsed + (U64 - 1)]) := by
  decide

/-- C6 amended: Timer.add stores deadline (elapsed + delay) mod 2^64; whenever
elapsed + delay does not overflow u64 this is the exact sum, the new event is
inserted and every other pending event is kept unchanged. -/
theorem c6_add_deadline_exact (t : Timer α) (delay : Nat) (cb : α)
    (h : t.elapsed + delay < U64) :
    ((t.add delay cb).events).Perm (Event.mk (t.elapsed + delay) cb :: t.events) := by
  have ht : (delay + t.elapsed) % U64 = t.elapsed + delay := by
    rw [Nat.add_comm delay t.elapsed, Nat.mod_eq_of_lt h]
  show (heapPush (Event.mk ((delay + t.elapsed) % U64) cb) t.events).Perm
    (Event.mk (t.elapsed + delay) cb :: t.events)
  rw [ht]
  exact heapPush_perm _ _

theorem c6_witness :
    ((Timer.new (α := Nat)).elapsed + 42 < U64)
    ∧ (((Timer.new (α := Nat)).add 42 7).events).Perm
        (Event.mk ((Timer.new (α := Nat)).elapsed + 42) 7 :: (Timer.new (α := Nat)).events) :=
  ⟨by decide, c6_add_deadline_exact Timer.new 42 7 (by decide)⟩

/-- C8 counterexample: advancing by 2^64 - 1 from elapsed = 1 wraps the u64
elapsed counter around to 0, strictly decreasing it. -/
theorem c8_counterexample :
    ((((Timer.new (α := Unit)).advance 1).2).advance (U64 - 1)).2.elapsed
      < (((Timer.new (α := Unit)).advance 1).2).elapsed := by
  decide

/-- C8 amended: add never changes the elapsed counter (and earliest is
read-only), while advance never decreases it provided elapsed + duration does
not overflow u64. -/
theorem c8_elapsed_monotone (t : Timer α) (d : Nat) (cb : α)
    (h : t.elapsed + d < U64) :
    t.elapsed ≤ ((t.advance d).2).elapsed ∧ (t.add d cb).elapsed = t.elapsed := by
  constructor
  · rw [advance_snd_elapsed, Nat.mod_eq_of_lt h]
    exact Nat.le_add_right _ _
  · rfl

theorem c8_witness :
    ((Timer.new (α := Unit)).elapsed + 5 < U64)
    ∧ ((Timer.new (α := Unit)).elapsed ≤ (((Timer.new (α := Unit)).advance 5).2).elapsed
        ∧ ((Timer.new (α := Unit)).add 5 ()).elapsed = (Timer.new (α := Unit)).elapsed) :=
  ⟨by decide, c8_elapsed_monotone Timer.new 5 () (by decide)⟩

/-- C3 counterexample: from the reachable state with elapsed = 2^64 - 2 and
one pending event at time 2^64 - 1, advancing by 1 and then 1 drains the
event, while a single advance by 2 wraps the u64 elapsed counter to 0 and
drains nothing, so the drained multisets differ. -/
theorem c3_counterexample :
    ¬ ((((((Timer.new (α := Unit)).add (U64 - 1) ()).advance (U64 - 2)).2.advance 1).1
          ++ ((((((Timer.new (α := Unit)).add (U64 - 1) ()).advance (U64 - 2)).2.advance 1).2).advance 1).1).Perm
        ((((Timer.new (α := Unit)).add (U64 - 1) ()).advance (U64 - 2)).2.advance 2).1) := by
  decide

/-- C3 amended: for a ≤ b, advancing by a and then by b - a drains exactly
the same events, in the same order, as a single advance by b, and leaves the
timer in the same final state, provided elapsed + b does not overflow u64. -/
theorem c3_advance_split (t : Timer α) (a b : Nat) (hab : a ≤ b)
    (hb : t.elapsed + b < U64) :
    (t.advance a).1 ++ (((t.advance a).2).advance (b - a)).1 = (t.advance b).1
    ∧ (((t.advance a).2).advance (b - a)).2 = (t.advance b).2 := by
  have hea : (t.elapsed + a) % U64 = t.elapsed + a :=
    Nat.mod_eq_of_lt (Nat.lt_of_le_of_lt (Nat.add_le_add_left hab _) hb)
  have heb : (t.elapsed + b) % U64 = t.elapsed + b := Nat.mod_eq_of_lt hb
  have hsum : t.elapsed + a + (b - a) = t.elapsed + b := by omega
  have hstep : (((t.advance a).2).elapsed + (b - a)) % U64 = t.elapsed + b := by
    rw [advance_snd_elapsed, hea, hsum, Nat.mod_eq_of_lt hb]
  have himp : ∀ e : Event α, due (t.elapsed + a) e = true → due (t.elapsed + b) e = true := by
    intro e he
    simp only [due, decide_eq_true_eq] at he ⊢
    exact Nat.le_trans he (Nat.add_le_add_left hab _)
  constructor
  · rw [advance_fst, advance_fst, advance_fst, hstep, advance_snd_events, hea, heb,
      ← List.map_append]
    congr 1
    exact takeWhile_append_takeWhile _ _ himp t.events
  · refine Timer.ext_eq _ _ ?_ ?_
    · rw [advance_snd_events, advance_snd_events, advance_snd_events, hstep, hea, heb]
      exact dropWhile_dropWhile _ _ himp t.events
    · rw [advance_snd_elapsed, hstep, advance_snd_elapsed, heb]

theorem c3_witness :
    (2 ≤ 6 ∧ (Timer.mk [Event.mk 3 10, Event.mk 7 20] 2 : Timer Nat).elapsed + 6 < U64)
    ∧ (((Timer.mk [Event.mk 3 10, Event.mk 7 20] 2 : Timer Nat).advance 2).1
          ++ ((((Timer.mk [Event.mk 3 10, Event.mk 7 20] 2 : Timer Nat).advance 2).2).advance (6 - 2)).1
        = ((Timer.mk [Event.mk 3 10, Event.mk 7 20] 2 : Timer Nat).advance 6).1
      ∧ ((((Timer.mk [Event.mk 3 10, Event.mk 7 20] 2 : Timer Nat).advance 2).2).advance (6 - 2)).2
        = ((Timer.mk [Event.mk 3 10, Event.mk 7 20] 2 : Timer Nat).advance 6).2) :=
  ⟨⟨by decide, by decide⟩,
    c3_advance_split (Timer.mk [Event.mk 3 10, Event.mk 7 20] 2) 2 6 (by decide) (by decide)⟩

/-- C5 counterexample: from the reachable state with elapsed = 1, an event
added with delay 0 is not returned by the immediately following advance when
its duration 2^64 - 1 wraps the u64 elapsed counter, contradicting the claim
for every duration d ≥ 0. -/
theorem c5_counterexample :
    ¬ (() ∈ (((((Timer.new (α := Unit)).advance 1).2).add 0 ()).advance (U64 - 1)).1) := by
  decide

/-- C5 amended: provided elapsed + d does not overflow u64, an event added
with delay 0 is returned by the very next advance for every duration d ≥ 0,
including d = 0, and no event whose deadline is at or before the new elapsed
value is dropped by that advance. -/
theorem c5_zero_delay_due (t : Timer α) (cb : α) (d : Nat)
    (hs : timeSorted t.events) (hel : t.elapsed < U64) (hd : t.elapsed + d < U64) :
    cb ∈ ((t.add 0 cb).advance d).1
    ∧ ∀ e ∈ t.events, e.time ≤ t.elapsed + d → e.cb ∈ ((t.add 0 cb).advance d).1 := by
  have hsort : timeSorted (t.add 0 cb).events := timeSorted_heapPush _ _ hs
  have hel2 : ((t.add 0 cb).elapsed + d) % U64 = t.elapsed + d := by
    show (t.elapsed + d) % U64 = t.elapsed + d
    exact Nat.mod_eq_of_lt hd
  have key : ∀ e, e ∈ (t.add 0 cb).events → e.time ≤ t.elapsed + d →
      e.cb ∈ ((t.add 0 cb).advance d).1 := by
    intro e hmem hle
    rw [advance_fst, hel2, timeSorted_takeWhile_eq_filter _ _ hsort]
    refine List.mem_map_of_mem Event.cb (List.mem_filter.mpr ⟨hmem, ?_⟩)
    simpa [due] using hle
  constructor
  · refine key (Event.mk ((0 + t.elapsed) % U64) cb) ?_ ?_
    · exact (heapPush_perm _ _).mem_iff.mpr (List.mem_cons_self _ _)
    · show (0 + t.elapsed) % U64 ≤ t.elapsed + d
      rw [Nat.zero_add, Nat.mod_eq_of_lt hel]
      exact Nat.le_add_right _ _
  · intro e he hle
    refine key e ?_ hle
    exact (heapPush_perm _ _).mem_iff.mpr (List.mem_cons_of_mem _ he)

theorem c5_witness :
    (timeSorted (Timer.mk [Event.mk 3 10] 2 : Timer Nat).events
      ∧ (Timer.mk [Event.mk 3 10] 2 : Timer Nat).elapsed < U64
      ∧ (Timer.mk [Event.mk 3 10] 2 : Timer Nat).elapsed + 4 < U64)
    ∧ (99 ∈ (((Timer.mk [Event.mk 3 10] 2 : Timer Nat).add 0 99).advance 4).1
      ∧ ∀ e ∈ (Timer.mk [Event.mk 3 10] 2 : Timer Nat).events,
          e.time ≤ (Timer.mk [Event.mk 3 10] 2 : Timer Nat).elapsed + 4 →
          e.cb ∈ (((Timer.mk [Event.mk 3 10] 2 : Timer Nat).add 0 99).advance 4).1) :=
  ⟨⟨by decide, by decide, by decide⟩,
    c5_zero_delay_due (Timer.mk [Event.mk 3 10] 2) 99 4 (by decide) (by decide) (by decide)⟩

/-- C1: on a fresh timer, a batch of adds followed by a single advance D
drains exactly the events whose deadline (their delay, since elapsed is 0 at
every insertion) is at most D, in nondecreasing deadline order with nothing
skipped or duplicated, projects their actions in that order, and leaves
pending exactly the still-future events. -/
theorem c1_single_advance_drains_due (ps : List (Nat × α)) (D : Nat)
    (hps : ∀ p ∈ ps, p.1 < U64) (hD : D < U64) :
    ((ps.foldl (fun u p => u.add p.1 p.2) Timer.new).advanceEvents D).1.Perm
        ((ps.filter (fun p => decide (p.1 ≤ D))).map (fun p => Event.mk p.1 p.2))
    ∧ timeSorted ((ps.foldl (fun u p => u.add p.1 p.2) Timer.new).advanceEvents D).1
    ∧ ((ps.foldl (fun u p => u.add p.1 p.2) Timer.new).advance D).1.Perm
        ((ps.filter (fun p => decide (p.1 ≤ D))).map Prod.snd)
    ∧ (((ps.foldl (fun u p => u.add p.1 p.2) Timer.new).advanceEvents D).2).events.Perm
        ((ps.filter (fun p => decide (D < p.1))).map (fun p => Event.mk p.1 p.2)) := by
  have hsorted : timeSorted (ps.foldl (fun u p => u.add p.1 p.2) (Timer.new (α := α))).events :=
    foldl_add_sorted ps Timer.new List.Pairwise.nil
  have h0 := foldl_add_events ps (Timer.new (α := α))
  have h1 : (ps.map (fun p => Event.mk ((p.1 + (Timer.new (α := α)).elapsed) % U64) p.2)
      ++ (Timer.new (α := α)).events) = ps.map (fun p => Event.mk p.1 p.2) := by
    show (ps.map (fun p => Event.mk ((p.1 + 0) % U64) p.2) ++ ([] : List (Event α)))
      = ps.map (fun p => Event.mk p.1 p.2)
    rw [List.append_nil]
    exact List.map_congr_left fun p hp => by
      rw [Nat.add_zero, Nat.mod_eq_of_lt (hps p hp)]
  rw [h1] at h0
  have helD : ((ps.foldl (fun u p => u.add p.1 p.2) (Timer.new (α := α))).elapsed + D) % U64
      = D := by
    rw [foldl_add_elapsed]
    show (0 + D) % U64 = D
    rw [Nat.zero_add, Nat.mod_eq_of_lt hD]
  have hf1 : ((ps.foldl (fun u p => u.add p.1 p.2) (Timer.new (α := α))).advanceEvents D).1
      = (ps.foldl (fun u p => u.add p.1 p.2) (Timer.new (α := α))).events.filter (due D) := by
    rw [advanceEvents_fst, helD, timeSorted_takeWhile_eq_filter _ _ hsorted]
  have hc1 : ((ps.foldl (fun u p => u.add p.1 p.2) Timer.new).advanceEvents D).1.Perm
      ((ps.filter (fun p => decide (p.1 ≤ D))).map (fun p => Event.mk p.1 p.2)) := by
    rw [hf1]
    refine (h0.filter (due D)).trans ?_
    rw [List.filter_map]
    exact List.Perm.refl _
  refine ⟨hc1, ?_, ?_, ?_⟩
  · rw [advanceEvents_fst]
    exact List.Pairwise.sublist (List.takeWhile_sublist _) hsorted
  · have h3 := hc1.map Event.cb
    rw [List.map_map] at h3
    exact h3
  · have hf2 : (((ps.foldl (fun u p => u.add p.1 p.2) (Timer.new (α := α))).advanceEvents D).2).events
        = (ps.foldl (fun u p => u.add p.1 p.2) (Timer.new (α := α))).events.filter
            (fun e => ! due D e) := by
      rw [advanceEvents_snd_events, helD, timeSorted_dropWhile_eq_filter _ _ hsorted]
    have hcong : ps.filter ((fun e => ! due D e) ∘ (fun p => Event.mk p.1 p.2))
        = ps.filter (fun p => decide (D < p.1)) := by
      refine List.filter_congr ?_
      intro p hp
      show (! decide (p.1 ≤ D)) = decide (D < p.1)
      rw [← decide_not]
      exact decide_eq_decide.mpr Nat.not_le
    rw [hf2]
    refine (h0.filter (fun e => ! due D e)).trans ?_
    rw [List.filter_map, hcong]

theorem c1_witness :
    ((∀ p ∈ ([(2, 10), (7, 20)] : List (Nat × Nat)), p.1 < U64) ∧ 2 < U64)
    ∧ (((([(2, 10), (7, 20)] : List (Nat × Nat)).foldl (fun u p => u.add p.1 p.2)
            Timer.new).advanceEvents 2).1.Perm
          ((([(2, 10), (7, 20)] : List (Nat × Nat)).filter (fun p => decide (p.1 ≤ 2))).map
            (fun p => Event.mk p.1 p.2))
      ∧ timeSorted ((([(2, 10), (7, 20)] : List (Nat × Nat)).foldl (fun u p => u.add p.1 p.2)
            Timer.new).advanceEvents 2).1
      ∧ ((([(2, 10), (7, 20)] : List (Nat × Nat)).foldl (fun u p => u.add p.1 p.2)
            Timer.new).advance 2).1.Perm
          ((([(2, 10), (7, 20)] : List (Nat × Nat)).filter (fun p => decide (p.1 ≤ 2))).map
            Prod.snd)
      ∧ (((([(2, 10), (7, 20)] : List (Nat × Nat)).foldl (fun u p => u.add p.1 p.2)
            Timer.new).advanceEvents 2).2).events.Perm
          ((([(2, 10), (7, 20)] : List (Nat × Nat)).filter (fun p => decide (2 < p.1))).map
            (fun p => Event.mk p.1 p.2))) :=
  ⟨⟨by decide, by decide⟩,
    c1_single_advance_drains_due ([(2, 10), (7, 20)] : List (Nat × Nat)) 2
      (by decide) (by decide)⟩

/-- C9: along any trace from a fresh timer in which no add overflows the u64
deadline computation delay + elapsed, every pending event time is at least
the current elapsed value, and consequently the u64 subtraction performed by
earliest never underflows: it agrees with truncated subtraction. -/
theorem c9_pending_ge_elapsed (ops : List (Op α)) (h : addsOk 0 ops = true) :
    (∀ e ∈ (Timer.runAll Timer.new ops).events,
        (Timer.runAll Timer.new ops).elapsed ≤ e.time)
    ∧ (Timer.runAll Timer.new ops).earliest
        = (Timer.runAll Timer.new ops).events.head?.map
            (fun e => e.time - (Timer.runAll Timer.new ops).elapsed) := by
  have hg := goodT_runAll (Timer.new (α := α)) ops goodT_new
  have hb := bounded_runAll (Timer.new (α := α)) ops goodT_new
    (fun e he => absurd he (List.not_mem_nil e)) h
  refine ⟨hb, ?_⟩
  cases hh : (Timer.runAll Timer.new ops).events with
  | nil => simp [Timer.earliest, hh]
  | cons x xs =>
    have hx : x ∈ (Timer.runAll Timer.new ops).events := by
      rw [hh]
      exact List.mem_cons_self x xs
    have h1 := hb x hx
    have h2 := hg.2.2 x hx
    simp only [Timer.earliest, hh, List.head?_cons, Option.map_some']
    congr 1
    rw [Nat.sub_add_comm h1, Nat.add_mod_right,
      Nat.mod_eq_of_lt (Nat.lt_of_le_of_lt (Nat.sub_le _ _) h2)]

theorem c9_witness :
    (addsOk 0 [Op.add 5 (), Op.advance 3, Op.add 4 ()] = true)
    ∧ ((∀ e ∈ (Timer.runAll Timer.new [Op.add 5 (), Op.advance 3, Op.add 4 ()]).events,
          (Timer.runAll Timer.new [Op.add 5 (), Op.advance 3, Op.add 4 ()]).elapsed ≤ e.time)
      ∧ (Timer.runAll Timer.new [Op.add 5 (), Op.advance 3, Op.add 4 ()]).earliest
          = (Timer.runAll Timer.new [Op.add 5 (), Op.advance 3, Op.add 4 ()]).events.head?.map
              (fun e => e.time
                - (Timer.runAll Timer.new [Op.add 5 (), Op.advance 3, Op.add 4 ()]).elapsed)) :=
  ⟨by decide, c9_pending_ge_elapsed [Op.add 5 (), Op.advance 3, Op.add 4 ()] (by decide)⟩

end Mesh
